import Mathlib

/-!
Verification of the GenEO domain-decomposition preconditioner (`GenEO/precond.py`)
against its natural-language specification.

The development shallowly embeds the parts of `precond.py` that the claims
concern.  Vectors of a (local or global) degree-of-freedom space are modelled
as functions `Fin n → ℚ`, matrices as `Matrix (Fin n) (Fin n) ℚ`; the external
PETSc services (scatters, direct solves, coarse projections) are parameters of
the embedded functions.  In-place PETSc vector operations are translated to
explicit state passing: each mutating call updates the slot of the variable it
is applied to, so that frame properties are meaningful.
-/

namespace GenEO

open Matrix

/-- A vector with `n` rational entries (a PETSc `Vec` of local or global size `n`). -/
abbrev Vec (n : ℕ) := Fin n → ℚ

/-- A dense `n × n` rational matrix (a PETSc `Mat`). -/
abbrev Mat (n : ℕ) := Matrix (Fin n) (Fin n) ℚ

/-! ## Scaling / partition of unity (PCBNN.__init__, precond.py lines 86-99) -/

/-- PETSc `Mat.diagonalScale(L, R)`: replace `M` by `diag(L) * M * diag(R)`,
entrywise `L i * M i j * R j`. -/
def diagonalScale {n : ℕ} (M : Mat n) (L R : Vec n) : Mat n :=
  Matrix.of fun i j => L i * M i j * R j

/-- The multiplicity vector computed in `PCBNN.__init__` (lines 86-91): each
subdomain scatters a local vector of ones into the zeroed global vector with
`ADD_VALUES`, so the global entry at dof `g` accumulates one unit per local
dof of each subdomain that maps to `g`.  A subdomain is its list of global
indices (one per local dof). -/
def multGlobal {N : ℕ} (doms : List (List (Fin N))) : Vec N :=
  fun g => (doms.map (fun d => ((d.count g : ℕ) : ℚ))).sum

/-- The scaling step of `PCBNN.__init__` (lines 93-99): if `kscaling` is
false, `Ms.diagonalScale(vlocal, vlocal)` with `vlocal` the multiplicity
vector restricted to the subdomain; otherwise `Ms.diagonalScale(v1/v2, v1/v2)`
with `v1 = As.getDiagonal()` and `v2 = Ms.getDiagonal()`. -/
def PCBNN_scaledMs {n : ℕ} (kscaling : Bool) (Ms As : Mat n) (vlocal : Vec n) : Mat n :=
  if kscaling = false then
    diagonalScale Ms vlocal vlocal
  else
    diagonalScale Ms (fun i => As i i / Ms i i) (fun i => As i i / Ms i i)

/-! ## The preconditioner application (PCBNN.mult / PCNew.mult) -/

/-- The external services consumed by `PCBNN.mult` / `PCNew.mult`:
the coarse projections `proj.project_transpose` / `proj.project` /
`proj.coarse_init`, the scatter `scatter_l2g` in its two directions, and the
local direct solve `ksp_Atildes.solve`.  `N` is the global size, `n` the local
size. -/
structure MultOps (N n : ℕ) where
  project_transpose : Vec N → Vec N
  project : Vec N → Vec N
  coarse_init : Vec N → Vec N
  scatter_rev : Vec N → Vec n
  scatter_add : Vec n → Vec N → Vec N
  solve : Vec n → Vec n

/-- The vector slots touched by `PCBNN.mult` / `PCNew.mult`: the argument `x`,
the output `y`, and the work vectors `works_1`, `works_2` owned by the
preconditioner object. -/
structure MultState (N n : ℕ) where
  x : Vec N
  y : Vec N
  works_1 : Vec n
  works_2 : Vec n

/-- Shallow embedding of `PCBNN.mult` (precond.py lines 147-178).  Each line
of the source maps to one binding: `xd = x.copy()`; optional
`project_transpose(xd)` (in place on `xd`); reverse overwrite scatter of `xd`
into `works_1`; local solve into `works_2`; `y.set(0.)`; forward additive
scatter of `works_2` into `y`; optional `project(y)` (in place on `y`);
optionally `xd = x.copy(); ytild = coarse_init(xd); y += ytild`. -/
def PCBNN_mult {N n : ℕ} (projCS addCS : Bool) (ops : MultOps N n)
    (s : MultState N n) : MultState N n :=
  let xd := s.x
  let xd := if projCS then ops.project_transpose xd else xd
  let works_1 := ops.scatter_rev xd
  let works_2 := ops.solve works_1
  let y : Vec N := 0
  let y := ops.scatter_add works_2 y
  let y := if projCS then ops.project y else y
  let y := if addCS then y + ops.coarse_init s.x else y
  ⟨s.x, y, works_1, works_2⟩

/-- Shallow embedding of `PCBNN.apply` (lines 204-222): it calls
`self.mult(x, y)` (the `pc` argument is unused). -/
def PCBNN_apply {N n : ℕ} (projCS addCS : Bool) (ops : MultOps N n)
    (s : MultState N n) : MultState N n :=
  PCBNN_mult projCS addCS ops s

/-- Shallow embedding of `PCNew.mult` (precond.py lines 641-672); the source
body is line-for-line the same as `PCBNN.mult`, operating on the `proj`,
`scatter_l2g` and `ksp_Atildes` owned by `PCNew`. -/
def PCNew_mult {N n : ℕ} (projCS addCS : Bool) (ops : MultOps N n)
    (s : MultState N n) : MultState N n :=
  let xd := s.x
  let xd := if projCS then ops.project_transpose xd else xd
  let works_1 := ops.scatter_rev xd
  let works_2 := ops.solve works_1
  let y : Vec N := 0
  let y := ops.scatter_add works_2 y
  let y := if projCS then ops.project y else y
  let y := if addCS then y + ops.coarse_init s.x else y
  ⟨s.x, y, works_1, works_2⟩

/-- Shallow embedding of `PCNew.apply` (lines 690-708): a call to
`self.mult(x, y)`. -/
def PCNew_apply {N n : ℕ} (projCS addCS : Bool) (ops : MultOps N n)
    (s : MultState N n) : MultState N n :=
  PCNew_mult projCS addCS ops s

/-- The six-step apply algorithm exactly as the specification words it
(spec section 4.5): (1) optionally replace `x` by `project_transpose(x)`;
(2) move into local space (reverse, overwrite); (3) local direct solve;
(4) move back into global space (forward, additive) into `y`; (5) optionally
`project(y)`; (6) optionally add `coarse_init(x)` with `x` the original
input.  This definition follows the specification text and is compared with
the embedding of the source. -/
def mult_sixstep_spec {N n : ℕ} (projCS addCS : Bool) (ops : MultOps N n)
    (x : Vec N) : Vec N :=
  let x1 := if projCS then ops.project_transpose x else x
  let w1 := ops.scatter_rev x1
  let w2 := ops.solve w1
  let y1 := ops.scatter_add w2 0
  let y2 := if projCS then ops.project y1 else y1
  if addCS then y2 + ops.coarse_init x else y2

/-! ## The multipreconditioned application (PCBNN.MP_mult / PCNew.MP_mult) -/

/-- The external services consumed by `PCBNN.MP_mult`: scatter in both
directions, local direct solve, and the coarse projection `proj.project`. -/
structure MPOps (N n : ℕ) where
  scatter_rev : Vec N → Vec n
  scatter_add : Vec n → Vec N → Vec N
  solve : Vec n → Vec n
  project : Vec N → Vec N

/-- Shallow embedding of `PCBNN.MP_mult` (precond.py lines 180-202), run on
the process of rank `rank` among `ndom` subdomains: one reverse scatter of
`x` into `works_1`, one local solve into `works_2`, then for each subdomain
`i`: `works_1.set(0)`, replaced by a copy of `works_2` when `rank == i`;
`y[i].set(0.)`; forward additive scatter of `works_1` into `y[i]`;
`proj.project(y[i])`.  The returned list holds the `ndom` output vectors. -/
def PCBNN_MP_mult {N n : ℕ} (ndom rank : ℕ) (ops : MPOps N n) (x : Vec N) :
    List (Vec N) :=
  let works_1 := ops.scatter_rev x
  let works_2 := ops.solve works_1
  (List.range ndom).map fun i =>
    let works_1 := if rank = i then works_2 else 0
    ops.project (ops.scatter_add works_1 0)

/-- Shallow embedding of `PCNew.MP_mult` (precond.py lines 674-688): the body
is a single print of the text "not implemented"; the output vectors `y`
are not touched.  The first component records the printed messages. -/
def PCNew_MP_mult {N : ℕ} (x : Vec N) (y : List (Vec N)) :
    List String × List (Vec N) :=
  ("not implemented" :: [], y)

/-! ## PCNew construction: diagonalization of Bs (precond.py lines 307-375) -/

/-- The list `Dnegs` built by the loop over the converged eigenpairs of `Bs`
(lines 361-372): for each converged pair whose eigenvalue is `< 0`, the value
`-1 * eigenvalue` is appended.  `pairs` is the list of converged
(eigenvalue, eigenvector) pairs in eigensolver order. -/
def Dnegs {n : ℕ} (pairs : List (ℚ × Vec n)) : List ℚ :=
  (pairs.filter fun p => p.1 < 0).map fun p => -p.1

/-- The list `Vnegs` built by the same loop: the eigenvectors of the
converged eigenpairs whose eigenvalue is `< 0`, in order. -/
def Vnegs {n : ℕ} (pairs : List (ℚ × Vec n)) : List (Vec n) :=
  (pairs.filter fun p => p.1 < 0).map fun p => p.2

/-- The list `DVnegs` built by the same loop: `Dnegs[-1] * Vnegs[-1]`, i.e.
each retained eigenvector scaled by the magnitude of its negative
eigenvalue. -/
def DVnegs {n : ℕ} (pairs : List (ℚ × Vec n)) : List (Vec n) :=
  (pairs.filter fun p => p.1 < 0).map fun p => (-p.1) • p.2

/-- The list `invmusVnegs` built by the same loop: `invmus * Vnegs[-1]`, the
entrywise product of the inverse-multiplicity vector with each retained
eigenvector. -/
def invmusVnegs {n : ℕ} (invmus : Vec n) (pairs : List (ℚ × Vec n)) :
    List (Vec n) :=
  (pairs.filter fun p => p.1 < 0).map fun p => invmus * p.2

/-- The diagnostic printed at line 359 when fewer eigenpairs converged than
requested; the source formats the rank, the converged count and the
requested count into the template
"for Bs in subdomain _: _ eigenvalues converged (less that the _ requested)"
(the wording, with its typo, is copied from the source). -/
def underconv_msg (rank conv nev : ℕ) : String :=
  "for Bs in subdomain " ++ toString rank ++ ": " ++ toString conv ++
    " eigenvalues converged (less that the " ++ toString nev ++ " requested)"

/-- The summary printed unconditionally at line 373; the source formats the
rank, the converged count, the number of negative eigenvalues and the
requested count into the template
"for Bs in subdomain _: ncv= _ with _ negative eigs (nev = _)". -/
def summary_msg (rank ncv nnegs nev : ℕ) : String :=
  "for Bs in subdomain " ++ toString rank ++ ": ncv= " ++ toString ncv ++
    " with " ++ toString nnegs ++ " negative eigs (nev = " ++ toString nev ++ ")"

/-- Shallow embedding of the eigenpair-processing phase of `PCNew.__init__`
(precond.py lines 357-375), on the subdomain of rank `rank`, with `nev` the
requested number of eigenpairs (`PCNew_Bs_nev`) and `pairs` the eigenpairs
the eigensolver actually converged (the loop runs over
`range(eps.getConverged())` only).  Returns the printed diagnostics together
with the four lists the loop builds. -/
def PCNew_eigphase {n : ℕ} (rank nev : ℕ) (pairs : List (ℚ × Vec n))
    (invmus : Vec n) :
    List String × List ℚ × List (Vec n) × List (Vec n) × List (Vec n) :=
  ((if pairs.length < nev then [underconv_msg rank pairs.length nev] else []) ++
      [summary_msg rank pairs.length (Vnegs pairs).length nev],
    Dnegs pairs, Vnegs pairs, DVnegs pairs, invmusVnegs invmus pairs)

/-! ## Matrix-free context operators (precond.py lines 710-826) -/

/-- Shallow embedding of `Anegs_ctx.mult` (lines 756-770), built from the
lists `Vnegs` and `DVnegs` as in `Anegs_ctx.__init__`: `y.set(0)`;
`gamma[i] = x.dot(DVnegs[i])` for each `i`; then `y.axpy(gamma[i], Vnegs[i])`
for each `i`.  The accumulated result is the sum of
`(x ⬝ᵥ DVnegs[i]) • Vnegs[i]`. -/
def Anegs_ctx_mult {n : ℕ} (Vn DVn : List (Vec n)) (x : Vec n) : Vec n :=
  ((DVn.zip Vn).map fun dv => (x ⬝ᵥ dv.1) • dv.2).sum

/-- Shallow embedding of `Aposs_ctx.mult` (lines 773-781), with the `Anegs`
operator it was constructed from abstracted as a function:
`xtemp = Anegs(x)`; `y = Bs(x)`; `y += xtemp`. -/
def Aposs_ctx_mult {n : ℕ} (Bs : Mat n) (Anegs : Vec n → Vec n) (x : Vec n) :
    Vec n :=
  Bs.mulVec x + Anegs x

/-- Shallow embedding of `projVnegs_ctx.mult` (lines 813-819): `y.set(0)`,
then `y.axpy(x.dot(vec), vec)` for each `vec` in `Vnegs`. -/
def projVnegs_ctx_mult {n : ℕ} (Vn : List (Vec n)) (x : Vec n) : Vec n :=
  (Vn.map fun v => (x ⬝ᵥ v) • v).sum

/-- Shallow embedding of `projVposs_ctx.mult` (lines 821-826), with the
`projVnegs` operator it was constructed from abstracted as a function:
`projVnegs(-x, y)` then `y.axpy(1., x)`. -/
def projVposs_ctx_mult {n : ℕ} (projVnegs : Vec n → Vec n) (x : Vec n) :
    Vec n :=
  projVnegs (-x) + x

/-- Shallow embedding of `invAposs_ctx.apply` (lines 795-804), with the
`Bs_ksp` solve and the `projVposs` operator abstracted as functions:
`projVposs.mult(x, xtemp1)`; `Bs_ksp.solve(xtemp1, xtemp2)`;
`projVposs.mult(xtemp2, y)`. -/
def invAposs_ctx_apply {n : ℕ} (solveBs projVposs : Vec n → Vec n)
    (x : Vec n) : Vec n :=
  let xtemp1 := projVposs x
  let xtemp2 := solveBs xtemp1
  projVposs xtemp2

/-- Shallow embedding of `invAposs_ctx.mult` (lines 805-811): a call to
`self.apply(mat, x, y)`. -/
def invAposs_ctx_mult {n : ℕ} (solveBs projVposs : Vec n → Vec n)
    (x : Vec n) : Vec n :=
  invAposs_ctx_apply solveBs projVposs x

/-- The composition worded by the specification for `invAposs` (spec section
4.6 step 6): project onto the positive complement, solve with the direct
solver for `Bs`, project again.  This definition follows the specification
text and is compared with the embedding of the source. -/
def invAposs_spec {n : ℕ} (solveBs projVposs : Vec n → Vec n) (x : Vec n) :
    Vec n :=
  projVposs (solveBs (projVposs x))

/-! ## PCNew construction: local-solver branch (precond.py lines 459-502) -/

/-- The warning printed at line 461 when `PCNew_switchtoASM` is selected
(the typo `opeator` is copied from the source). -/
def asm_warning : String :=
  "The GenEO coarse space for this Atildes with global opeator Apos is not implemented yet, the component for eigmax is missing"

/-- The notice printed at line 464 on rank 0 in the same branch. -/
def asm_notice : String :=
  "The user has chosen to switch to Additive Schwarz instead of BNN."

/-- The result of the local-solver branch of `PCNew.__init__`: the printed
messages and the mandatory coarse-space seed `minV0s` it selects. -/
structure PCNewBranch (n : ℕ) where
  msgs : List String
  minV0s : List (Vec n)

/-- Shallow embedding of the branch at precond.py lines 459-502, keeping the
observable choices (the external PETSc solver setup calls carry no data
relevant to the claims).  When `switchtoASM` is true the warning is printed,
the rank-0 notice is printed on rank 0, and `minV0s = minimal_V0(ksp_Atildes).V0s`
(`minimalV0s`, the basis of the minimal builder); otherwise nothing is printed and
`minV0s = invmusVnegs` (the scaled negative eigenvectors).  The branch raises
no exception, so the embedding is a total function. -/
def PCNew_seed_branch {n : ℕ} (switchtoASM isRank0 : Bool)
    (minimalV0s scaledVnegs : List (Vec n)) : PCNewBranch n :=
  if switchtoASM then
    ⟨[asm_warning] ++ (if isRank0 then [asm_notice] else []), minimalV0s⟩
  else
    ⟨[], scaledVnegs⟩

/-! ## Orthonormality predicates used as preconditions -/

/-- The vectors of `l` are pairwise orthogonal. -/
def pairwiseOrtho {n : ℕ} (l : List (Vec n)) : Prop :=
  l.Pairwise fun u v => u ⬝ᵥ v = 0

/-- Every vector of `l` has unit square norm. -/
def allUnit {n : ℕ} (l : List (Vec n)) : Prop :=
  ∀ v ∈ l, v ⬝ᵥ v = 1

/-! ## Concrete data used by witnesses -/

/-- The standard basis vector with a one in position `k`. -/
def unitVec (n : ℕ) (k : Fin n) : Vec n := fun i => if i = k then 1 else 0

/-- A concrete symmetric indefinite local matrix, `diag(1, -1)`. -/
def BsW : Mat 2 :=
  Matrix.of fun i j => if i = j then (if i = (0 : Fin 2) then 1 else -1) else 0

/-- The full orthonormal eigendecomposition of `BsW` as an eigensolver would
return it. -/
def pairsW : List (ℚ × Vec 2) := [(1, unitVec 2 0), (-1, unitVec 2 1)]

/-- A concrete test vector with all entries one. -/
def xW : Vec 2 := fun _ => 1

/-- A concrete converged-eigenpair list on a one-dimensional local space. -/
def pairsW1 : List (ℚ × Vec 1) := [(-1, fun _ => 1), (2, fun _ => 1)]

/-- The concrete 1x1 matrix with entry one. -/
def oneM : Mat 1 := Matrix.of fun _ _ => 1

/-- A concrete decomposition of a one-dof global problem into two
subdomains that both own the dof. -/
def domsW : List (List (Fin 1)) := [[0], [0]]

/-! ## Shared helper lemmas -/

theorem list_sum_dotProduct {n : ℕ} {α : Type} (l : List α) (f : α → Vec n)
    (w : Vec n) :
    (l.map f).sum ⬝ᵥ w = (l.map fun a => f a ⬝ᵥ w).sum := by
  induction l with
  | nil => simp
  | cons a t ih => simp [Matrix.add_dotProduct, ih]

theorem dotProduct_list_sum {n : ℕ} {α : Type} (l : List α) (f : α → Vec n)
    (w : Vec n) :
    w ⬝ᵥ (l.map f).sum = (l.map fun a => w ⬝ᵥ f a).sum := by
  induction l with
  | nil => simp
  | cons a t ih => simp [Matrix.dotProduct_add, ih]

theorem mulVec_list_sum {n : ℕ} {α : Type} (B : Mat n) (l : List α)
    (f : α → Vec n) :
    B.mulVec (l.map f).sum = (l.map fun a => B.mulVec (f a)).sum := by
  induction l with
  | nil => simp
  | cons a t ih => simp [Matrix.mulVec_add, ih]

theorem zip_map_map {α β γ δ : Type} (f : α → β) (g : α → γ) (h : β × γ → δ)
    (l : List α) :
    ((l.map f).zip (l.map g)).map h = l.map fun a => h (f a, g a) := by
  induction l with
  | nil => simp
  | cons a t ih => simp [ih]

theorem sum_map_add {α : Type} (l : List α) (f g : α → ℚ) :
    (l.map fun a => f a + g a).sum = (l.map f).sum + (l.map g).sum := by
  induction l with
  | nil => simp
  | cons a t ih => simp [ih]; ring

theorem filter_map_sum {α : Type} (l : List α) (q : α → Bool) (f : α → ℚ) :
    ((l.filter q).map f).sum = (l.map fun a => if q a then f a else 0).sum := by
  induction l with
  | nil => simp
  | cons a t ih =>
    by_cases h : q a
    · simp [List.filter_cons, h, ih]
    · simp [List.filter_cons, h, ih]

theorem projVnegs_nil {n : ℕ} (x : Vec n) :
    projVnegs_ctx_mult [] x = 0 := rfl

theorem projVnegs_cons {n : ℕ} (v : Vec n) (t : List (Vec n)) (x : Vec n) :
    projVnegs_ctx_mult (v :: t) x = (x ⬝ᵥ v) • v + projVnegs_ctx_mult t x := by
  simp [projVnegs_ctx_mult]

theorem projVnegs_add {n : ℕ} (l : List (Vec n)) (x y : Vec n) :
    projVnegs_ctx_mult l (x + y) =
      projVnegs_ctx_mult l x + projVnegs_ctx_mult l y := by
  induction l with
  | nil => simp [projVnegs_ctx_mult]
  | cons v t ih =>
    simp only [projVnegs_cons, ih, Matrix.add_dotProduct, add_smul]
    abel

theorem projVnegs_smul {n : ℕ} (l : List (Vec n)) (c : ℚ) (x : Vec n) :
    projVnegs_ctx_mult l (c • x) = c • projVnegs_ctx_mult l x := by
  induction l with
  | nil => simp [projVnegs_ctx_mult]
  | cons v t ih =>
    simp only [projVnegs_cons, ih, Matrix.smul_dotProduct, smul_add, smul_smul,
      smul_eq_mul]

theorem projVnegs_neg {n : ℕ} (l : List (Vec n)) (x : Vec n) :
    projVnegs_ctx_mult l (-x) = -projVnegs_ctx_mult l x := by
  have h := projVnegs_smul l (-1) x
  simpa using h

theorem projVnegs_orth {n : ℕ} (l : List (Vec n)) (x : Vec n)
    (h : ∀ v ∈ l, x ⬝ᵥ v = 0) :
    projVnegs_ctx_mult l x = 0 := by
  induction l with
  | nil => simp [projVnegs_ctx_mult]
  | cons v t ih =>
    have hv : x ⬝ᵥ v = 0 := h v (by simp)
    have ht : ∀ u ∈ t, x ⬝ᵥ u = 0 := fun u hu => h u (by simp [hu])
    simp [projVnegs_cons, hv, ih ht]

theorem projVnegs_dot {n : ℕ} (l : List (Vec n)) (x v : Vec n)
    (h : ∀ u ∈ l, u ⬝ᵥ v = 0) :
    projVnegs_ctx_mult l x ⬝ᵥ v = 0 := by
  induction l with
  | nil => simp [projVnegs_ctx_mult]
  | cons u t ih =>
    have hu : u ⬝ᵥ v = 0 := h u (by simp)
    have ht : ∀ w ∈ t, w ⬝ᵥ v = 0 := fun w hw => h w (by simp [hw])
    simp [projVnegs_cons, Matrix.add_dotProduct, Matrix.smul_dotProduct, hu,
      ih ht]

theorem projVnegs_idem {n : ℕ} (l : List (Vec n))
    (h1 : pairwiseOrtho l) (h2 : allUnit l) (x : Vec n) :
    projVnegs_ctx_mult l (projVnegs_ctx_mult l x) = projVnegs_ctx_mult l x := by
  induction l with
  | nil => simp [projVnegs_ctx_mult]
  | cons v t ih =>
    have hvt : ∀ u ∈ t, v ⬝ᵥ u = 0 := (List.pairwise_cons.mp h1).1
    have htv : ∀ u ∈ t, u ⬝ᵥ v = 0 := fun u hu => by
      rw [Matrix.dotProduct_comm]; exact hvt u hu
    have ht1 : pairwiseOrtho t := (List.pairwise_cons.mp h1).2
    have ht2 : allUnit t := fun u hu => h2 u (by simp [hu])
    have hvv : v ⬝ᵥ v = 1 := h2 v (by simp)
    have hx := projVnegs_cons v t x
    rw [projVnegs_cons v t (projVnegs_ctx_mult (v :: t) x), hx]
    have hc : ((x ⬝ᵥ v) • v + projVnegs_ctx_mult t x) ⬝ᵥ v = x ⬝ᵥ v := by
      rw [Matrix.add_dotProduct, Matrix.smul_dotProduct, hvv,
        projVnegs_dot t x v htv]
      simp
    rw [hc, projVnegs_add, projVnegs_smul,
      projVnegs_orth t v (fun u hu => hvt u hu), ih ht1 ht2]
    simp

theorem Anegs_filter_sum {n : ℕ} (pairs : List (ℚ × Vec n)) (x : Vec n) :
    Anegs_ctx_mult (Vnegs pairs) (DVnegs pairs) x
      = ((pairs.filter fun p => p.1 < 0).map
          fun p => ((x ⬝ᵥ p.2) * (-p.1)) • p.2).sum := by
  unfold Anegs_ctx_mult Vnegs DVnegs
  rw [zip_map_map]
  apply congrArg List.sum
  apply List.map_congr_left
  intro p _
  have h : x ⬝ᵥ ((-p.1) • p.2) = (x ⬝ᵥ p.2) * (-p.1) := by
    rw [Matrix.dotProduct_smul, smul_eq_mul, mul_comm]
  rw [h]

theorem multGlobal_count {N : ℕ} (doms : List (List (Fin N)))
    (hdom : ∀ d ∈ doms, d.Nodup) (g : Fin N) :
    multGlobal doms g = ((doms.filter fun d => g ∈ d).length : ℚ) := by
  induction doms with
  | nil => simp [multGlobal]
  | cons d t ih =>
    have hd : d.Nodup := hdom d (List.mem_cons_self d t)
    have ht : ∀ d2 ∈ t, d2.Nodup := fun d2 h2 => hdom d2 (List.mem_cons_of_mem d h2)
    have hrec := ih ht
    by_cases hm : g ∈ d
    · have hc : d.count g = 1 := List.count_eq_one_of_mem hd hm
      simp only [multGlobal, List.map_cons, List.sum_cons] at hrec ⊢
      rw [hc, List.filter_cons_of_pos (by simpa using hm), List.length_cons,
        hrec]
      push_cast
      ring
    · have hc : d.count g = 0 := by simp [List.count_eq_zero, hm]
      simp only [multGlobal, List.map_cons, List.sum_cons] at hrec ⊢
      rw [hc, List.filter_cons_of_neg (by simpa using hm), hrec]
      push_cast
      ring

/-! ## Claim theorems -/

/-- C3: for every input vector, every flag combination and every
instantiation of the external services, `PCBNN.mult` (and `PCBNN.apply`,
which calls it) computes its output `y` by exactly the six-step algorithm of
the specification: optional `project_transpose` of (a copy of) `x`, reverse
overwrite scatter into local space, local direct solve, forward additive
scatter into `y`, optional `project(y)`, and optional addition of
`coarse_init(x)` with `x` the original input. -/
theorem C3_mult_is_sixstep {N n : ℕ} (projCS addCS : Bool) (ops : MultOps N n)
    (s : MultState N n) :
    (PCBNN_mult projCS addCS ops s).y = mult_sixstep_spec projCS addCS ops s.x
    ∧ (PCBNN_apply projCS addCS ops s).y
        = mult_sixstep_spec projCS addCS ops s.x := by
  constructor <;> (cases projCS <;> cases addCS <;> rfl)

/-- C10: for both `PCBNN` and `PCNew`, the preconditioner application
`mult` (and hence `apply`) never modifies the input slot `x`: all in-place
operations (`project_transpose`, the coarse correction) act on the private
copy `xd`, so the `x` slot of the state is returned unchanged, for every
input state, every flag combination and every instantiation of the external
services. -/
theorem C10_mult_preserves_input {N n : ℕ} (projCS addCS : Bool)
    (ops : MultOps N n) (s : MultState N n) :
    (PCBNN_mult projCS addCS ops s).x = s.x
    ∧ (PCNew_mult projCS addCS ops s).x = s.x
    ∧ (PCBNN_apply projCS addCS ops s).x = s.x
    ∧ (PCNew_apply projCS addCS ops s).x = s.x := by
  refine ⟨?_, ?_, ?_, ?_⟩ <;> (cases projCS <;> cases addCS <;> rfl)

/-- C5: the finite-rank negative-part operator `Anegs`, built from the lists
`Vnegs`/`DVnegs` of the eigenpair loop, computes on every local vector `x`
the sum over exactly the converged eigenpairs of `Bs` with negative
eigenvalue of `(x · v_i) * lambda_i` times `v_i`, where
`lambda_i = -eigenvalue_i` is the magnitude stored in `Dnegs`; eigenpairs
with nonnegative eigenvalue contribute nothing. -/
theorem C5_Anegs_negative_part {n : ℕ} (pairs : List (ℚ × Vec n))
    (x : Vec n) :
    Anegs_ctx_mult (Vnegs pairs) (DVnegs pairs) x
      = ((pairs.filter fun p => p.1 < 0).map
          fun p => ((x ⬝ᵥ p.2) * (-p.1)) • p.2).sum :=
  Anegs_filter_sum pairs x

/-- C7: the inverse operator `invAposs`, instantiated as in `PCNew.__init__`
with the `Bs` factorization solve and the `projVposs` operator built over
`projVnegs`, computes exactly the composition
`projVposs(Bs_solve(projVposs(x)))`, and its `mult` and `apply` entry points
compute the same function. -/
theorem C7_invAposs_composition {n : ℕ} (solveBs : Vec n → Vec n)
    (Vn : List (Vec n)) (x : Vec n) :
    invAposs_ctx_apply solveBs (projVposs_ctx_mult (projVnegs_ctx_mult Vn)) x
      = invAposs_spec solveBs (projVposs_ctx_mult (projVnegs_ctx_mult Vn)) x
    ∧ invAposs_ctx_mult solveBs (projVposs_ctx_mult (projVnegs_ctx_mult Vn)) x
      = invAposs_ctx_apply solveBs (projVposs_ctx_mult (projVnegs_ctx_mult Vn))
          x :=
  ⟨rfl, rfl⟩

/-- C8: when `PCNew_switchtoASM` is selected, the construction branch of
`PCNew.__init__` completes (the embedding is a total function, matching the
absence of any raised exception in the branch), reports the
feature-unavailable warning naming the missing eigen-max component, and uses
the basis of the minimal builder as the mandatory coarse-space seed instead
of the scaled negative eigenvectors. -/
theorem C8_switchtoASM_branch {n : ℕ} (isRank0 : Bool)
    (minimalV0s scaledVnegs : List (Vec n)) :
    asm_warning ∈ (PCNew_seed_branch true isRank0 minimalV0s scaledVnegs).msgs
    ∧ (PCNew_seed_branch true isRank0 minimalV0s scaledVnegs).minV0s
        = minimalV0s := by
  constructor
  · simp [PCNew_seed_branch]
  · simp [PCNew_seed_branch]

/-- C9: when the eigensolver converges fewer eigenpairs than the requested
`PCNew_Bs_nev`, the eigenpair-processing phase of `PCNew.__init__` completes,
its diagnostics contain the message naming the subdomain rank and the
converged and requested counts, the lists it builds are exactly the
filter-maps over the converged eigenpairs with negative eigenvalue, and
those lists do not depend on the requested count at all. -/
theorem C9_underconvergence {n : ℕ} (rank nev : ℕ)
    (pairs : List (ℚ × Vec n)) (invmus : Vec n)
    (h : pairs.length < nev) :
    underconv_msg rank pairs.length nev
        ∈ (PCNew_eigphase rank nev pairs invmus).1
    ∧ (PCNew_eigphase rank nev pairs invmus).2
        = ((pairs.filter fun p => p.1 < 0).map fun p => -p.1,
            (pairs.filter fun p => p.1 < 0).map fun p => p.2,
            (pairs.filter fun p => p.1 < 0).map fun p => (-p.1) • p.2,
            (pairs.filter fun p => p.1 < 0).map fun p => invmus * p.2)
    ∧ ∀ nev2 : ℕ, (PCNew_eigphase rank nev2 pairs invmus).2
        = (PCNew_eigphase rank nev pairs invmus).2 := by
  refine ⟨?_, rfl, fun nev2 => rfl⟩
  simp [PCNew_eigphase, h]

/-- Witness for C9 at a concrete under-converged instance: rank 3, 20
requested eigenpairs, 2 converged. -/
theorem C9_underconvergence_witness :
    pairsW1.length < 20
    ∧ (underconv_msg 3 pairsW1.length 20
          ∈ (PCNew_eigphase 3 20 pairsW1 (fun _ => 1)).1
        ∧ (PCNew_eigphase 3 20 pairsW1 (fun _ => 1)).2
            = ((pairsW1.filter fun p => p.1 < 0).map fun p => -p.1,
                (pairsW1.filter fun p => p.1 < 0).map fun p => p.2,
                (pairsW1.filter fun p => p.1 < 0).map fun p => (-p.1) • p.2,
                (pairsW1.filter fun p => p.1 < 0).map fun p => (fun _ => 1) * p.2)
        ∧ ∀ nev2 : ℕ, (PCNew_eigphase 3 nev2 pairsW1 (fun _ => 1)).2
            = (PCNew_eigphase 3 20 pairsW1 (fun _ => 1)).2) :=
  ⟨by decide, C9_underconvergence 3 20 pairsW1 (fun _ => 1) (by decide)⟩

/-- Counterexample to C1 as stated: on a one-dof subdomain shared by two
subdomains (multiplicity 2) with `Ms = [[1]]`, the multiplicity branch of
the code (`PCBNN_kscaling` false) produces the entry `2 * 1 * 2 = 4`, not the
`1/2 * 1 * 1/2 = 1/4` that diagonal scaling by `1/multiplicity` on each side
would give. -/
theorem C1_counterexample :
    multGlobal domsW 0 = 2
    ∧ PCBNN_scaledMs false oneM oneM (fun _ => multGlobal domsW 0) 0 0 = 4
    ∧ PCBNN_scaledMs false oneM oneM (fun _ => multGlobal domsW 0) 0 0
      ≠ (1 / 2 : ℚ) * 1 * (1 / 2) := by
  have hm : multGlobal domsW 0 = 2 := by
    norm_num [multGlobal, domsW]
  refine ⟨hm, ?_, ?_⟩ <;>
    norm_num [PCBNN_scaledMs, diagonalScale, oneM, hm]

/-- C1 (amended): in the Scaling/Partition-of-Unity step of `PCBNN`
construction, when multiplicity scaling is selected (`PCBNN_kscaling` false)
the local non-assembled matrix `Ms` is diagonal-scaled by the multiplicity
itself on each side (so that the local solve with the scaled matrix applies
`1/multiplicity` on each side of the inverse); when k-scaling is selected
(the default) `Ms` is diagonal-scaled by the ratio assembled-diagonal over
non-assembled-diagonal on each side; and the multiplicity vector is the
per-degree-of-freedom count of owning subdomains (for subdomain index lists
without internal repetition). -/
theorem C1_scaling_amended {n N : ℕ} (Ms As : Mat n)
    (doms : List (List (Fin N))) (l2g : Fin n → Fin N)
    (hdom : ∀ d ∈ doms, d.Nodup) :
    (∀ i j, PCBNN_scaledMs false Ms As (fun i => multGlobal doms (l2g i)) i j
        = multGlobal doms (l2g i) * Ms i j * multGlobal doms (l2g j))
    ∧ (∀ (vlocal : Vec n) (i j : Fin n), PCBNN_scaledMs true Ms As vlocal i j
        = (As i i / Ms i i) * Ms i j * (As j j / Ms j j))
    ∧ ∀ g : Fin N,
        multGlobal doms g = ((doms.filter fun d => g ∈ d).length : ℚ) :=
  ⟨fun i j => rfl, fun vlocal i j => rfl, fun g => multGlobal_count doms hdom g⟩

/-- Witness for C1 (amended) at a concrete configuration: one global dof
owned by two one-dof subdomains. -/
theorem C1_scaling_amended_witness :
    (∀ d ∈ domsW, d.Nodup)
    ∧ ((∀ i j, PCBNN_scaledMs false oneM oneM
            (fun i => multGlobal domsW ((fun _ => 0) i)) i j
          = multGlobal domsW ((fun _ => 0) i) * oneM i j
              * multGlobal domsW ((fun _ => 0) j))
      ∧ (∀ (vlocal : Vec 1) (i j : Fin 1), PCBNN_scaledMs true oneM oneM vlocal i j
          = (oneM i i / oneM i i) * oneM i j * (oneM j j / oneM j j))
      ∧ ∀ g : Fin 1,
          multGlobal domsW g = ((domsW.filter fun d => g ∈ d).length : ℚ)) :=
  ⟨by decide, C1_scaling_amended oneM oneM domsW (fun _ => 0) (by decide)⟩

/-- Counterexample to C2 as stated: on a one-dof problem with one subdomain
and identity services, the BNN multipreconditioned algorithm produces the
output list `[x]`, while `PCNew.MP_mult` leaves its output list `[0]`
untouched; the two disagree. -/
theorem C2_counterexample :
    (PCNew_MP_mult (N := 1) (fun _ => 1) [0]).2
      ≠ PCBNN_MP_mult 1 0 ⟨id, fun l g => g + l, id, id⟩ (fun _ => (1 : ℚ)) := by
  intro h
  have h0 : (0 : Vec 1) = id ((0 : Vec 1) + id (id ((fun _ => (1 : ℚ)) : Vec 1))) := by
    have := congrArg (fun l => l.headI) h
    simpa [PCNew_MP_mult, PCBNN_MP_mult, List.range_succ] using this
  have h1 := congrFun h0 0
  norm_num at h1

/-- C2 (amended): for the algebraic-splitting variant `PCNew`, the
multipreconditioned application `MP_mult` does not perform the per-subdomain
algorithm of the BNN variant: it is an unimplemented stub that prints
`not implemented` and leaves the output vectors unchanged. -/
theorem C2_MP_mult_stub {N : ℕ} (x : Vec N) (y : List (Vec N)) :
    (PCNew_MP_mult x y).2 = y
    ∧ "not implemented" ∈ (PCNew_MP_mult x y).1 :=
  ⟨rfl, by simp [PCNew_MP_mult]⟩

/-- C6: under the precondition that the stored eigenvectors are orthonormal,
the projection `projVnegs` (sum of `(x · v_i) v_i`) and its complement
`projVposs` (built from `projVnegs` exactly as in `PCNew.__init__`) are each
idempotent on every local vector. -/
theorem C6_projections_idempotent {n : ℕ} (Vn : List (Vec n))
    (h1 : pairwiseOrtho Vn) (h2 : allUnit Vn) (x : Vec n) :
    projVnegs_ctx_mult Vn (projVnegs_ctx_mult Vn x) = projVnegs_ctx_mult Vn x
    ∧ projVposs_ctx_mult (projVnegs_ctx_mult Vn)
        (projVposs_ctx_mult (projVnegs_ctx_mult Vn) x)
      = projVposs_ctx_mult (projVnegs_ctx_mult Vn) x := by
  constructor
  · exact projVnegs_idem Vn h1 h2 x
  · have hP0 : projVnegs_ctx_mult Vn
        (projVposs_ctx_mult (projVnegs_ctx_mult Vn) x) = 0 := by
      show projVnegs_ctx_mult Vn (projVnegs_ctx_mult Vn (-x) + x) = 0
      rw [projVnegs_add, projVnegs_neg, projVnegs_neg,
        projVnegs_idem Vn h1 h2 x]
      simp
    show projVnegs_ctx_mult Vn
        (-(projVposs_ctx_mult (projVnegs_ctx_mult Vn) x))
        + projVposs_ctx_mult (projVnegs_ctx_mult Vn) x
      = projVposs_ctx_mult (projVnegs_ctx_mult Vn) x
    rw [projVnegs_neg, hP0]
    simp

/-- Witness for C6 at a concrete orthonormal family: the first standard
basis vector of a two-dimensional local space, applied to the all-ones
vector. -/
theorem C6_projections_idempotent_witness :
    pairwiseOrtho [unitVec 2 0]
    ∧ allUnit [unitVec 2 0]
    ∧ (projVnegs_ctx_mult [unitVec 2 0]
          (projVnegs_ctx_mult [unitVec 2 0] xW)
        = projVnegs_ctx_mult [unitVec 2 0] xW
      ∧ projVposs_ctx_mult (projVnegs_ctx_mult [unitVec 2 0])
          (projVposs_ctx_mult (projVnegs_ctx_mult [unitVec 2 0]) xW)
        = projVposs_ctx_mult (projVnegs_ctx_mult [unitVec 2 0]) xW) :=
  ⟨by simp [pairwiseOrtho],
    by
      intro v hv
      simp only [List.mem_singleton] at hv
      subst hv
      simp [unitVec, Matrix.dotProduct, Fin.sum_univ_two],
    C6_projections_idempotent [unitVec 2 0] (by simp [pairwiseOrtho])
      (by
        intro v hv
        simp only [List.mem_singleton] at hv
        subst hv
        simp [unitVec, Matrix.dotProduct, Fin.sum_univ_two])
      xW⟩

/-- C4: with `Aposs` and `Anegs` built as in `PCNew.__init__` from the
converged eigenpairs of `Bs`, the operator identity
`Aposs(x) = Bs(x) + Anegs(x)` holds unconditionally, and under the
precondition that the returned eigenpairs are genuine orthonormal eigenpairs
of `Bs` forming a complete eigendecomposition at `x` (the orthonormal
expansion of `x` in the returned eigenvectors reproduces `x`), the quadratic
forms satisfy the stated identity with both `Aposs` and `Anegs` quadratic
forms nonnegative. -/
theorem C4_sign_split {n : ℕ} (Bs : Mat n) (pairs : List (ℚ × Vec n))
    (x : Vec n)
    (heig : ∀ p ∈ pairs, Bs.mulVec p.2 = p.1 • p.2)
    (hortho : pairwiseOrtho (pairs.map fun p => p.2))
    (hunit : allUnit (pairs.map fun p => p.2))
    (hspan : x = (pairs.map fun p => (x ⬝ᵥ p.2) • p.2).sum) :
    (∀ z, Aposs_ctx_mult Bs (Anegs_ctx_mult (Vnegs pairs) (DVnegs pairs)) z
        = Bs.mulVec z + Anegs_ctx_mult (Vnegs pairs) (DVnegs pairs) z)
    ∧ Bs.mulVec x ⬝ᵥ x
        = Aposs_ctx_mult Bs (Anegs_ctx_mult (Vnegs pairs) (DVnegs pairs)) x ⬝ᵥ x
          - Anegs_ctx_mult (Vnegs pairs) (DVnegs pairs) x ⬝ᵥ x
    ∧ 0 ≤ Aposs_ctx_mult Bs (Anegs_ctx_mult (Vnegs pairs) (DVnegs pairs)) x ⬝ᵥ x
    ∧ 0 ≤ Anegs_ctx_mult (Vnegs pairs) (DVnegs pairs) x ⬝ᵥ x := by
  have hAq : Anegs_ctx_mult (Vnegs pairs) (DVnegs pairs) x ⬝ᵥ x
      = ((pairs.filter fun p => p.1 < 0).map
          fun p => (-p.1) * ((x ⬝ᵥ p.2) * (x ⬝ᵥ p.2))).sum := by
    rw [Anegs_filter_sum, list_sum_dotProduct]
    apply congrArg List.sum
    apply List.map_congr_left
    intro p _
    rw [Matrix.smul_dotProduct, smul_eq_mul, Matrix.dotProduct_comm]
    ring
  have hAq_nonneg : 0 ≤ Anegs_ctx_mult (Vnegs pairs) (DVnegs pairs) x ⬝ᵥ x := by
    rw [hAq]
    apply List.sum_nonneg
    intro a ha
    simp only [List.mem_map, List.mem_filter] at ha
    obtain ⟨p, ⟨_, hneg⟩, rfl⟩ := ha
    have hp : p.1 < 0 := by simpa using hneg
    exact mul_nonneg (by linarith) (mul_self_nonneg _)
  have hBq : Bs.mulVec x ⬝ᵥ x
      = (pairs.map fun p => p.1 * ((x ⬝ᵥ p.2) * (x ⬝ᵥ p.2))).sum := by
    have h1 : Bs.mulVec x
        = (pairs.map fun p => (p.1 * (x ⬝ᵥ p.2)) • p.2).sum := by
      conv_lhs => rw [hspan]
      rw [mulVec_list_sum]
      apply congrArg List.sum
      apply List.map_congr_left
      intro p hp
      rw [Matrix.mulVec_smul, heig p hp, smul_smul, mul_comm]
    rw [h1, list_sum_dotProduct]
    apply congrArg List.sum
    apply List.map_congr_left
    intro p _
    rw [Matrix.smul_dotProduct, smul_eq_mul, Matrix.dotProduct_comm]
    ring
  have hPq : Aposs_ctx_mult Bs (Anegs_ctx_mult (Vnegs pairs) (DVnegs pairs)) x ⬝ᵥ x
      = Bs.mulVec x ⬝ᵥ x + Anegs_ctx_mult (Vnegs pairs) (DVnegs pairs) x ⬝ᵥ x := by
    rw [show Aposs_ctx_mult Bs (Anegs_ctx_mult (Vnegs pairs) (DVnegs pairs)) x
        = Bs.mulVec x + Anegs_ctx_mult (Vnegs pairs) (DVnegs pairs) x from rfl,
      Matrix.add_dotProduct]
  refine ⟨fun z => rfl, by rw [hPq]; ring, ?_, hAq_nonneg⟩
  rw [hPq, hBq, hAq,
    filter_map_sum pairs _ (fun p => (-p.1) * ((x ⬝ᵥ p.2) * (x ⬝ᵥ p.2))),
    ← sum_map_add]
  apply List.sum_nonneg
  intro a ha
  simp only [List.mem_map] at ha
  obtain ⟨p, _, rfl⟩ := ha
  by_cases hp : p.1 < 0
  · rw [if_pos (by simpa using hp)]
    have h0 : p.1 * (x ⬝ᵥ p.2 * (x ⬝ᵥ p.2))
        + -p.1 * (x ⬝ᵥ p.2 * (x ⬝ᵥ p.2)) = 0 := by ring
    rw [h0]
  · rw [if_neg (by simpa using hp)]
    have h0 : 0 ≤ p.1 := le_of_not_lt hp
    simpa using mul_nonneg h0 (mul_self_nonneg (x ⬝ᵥ p.2))

/-- Witness for C4 at the concrete decomposition `BsW = diag(1, -1)` with
its full orthonormal eigendecomposition `pairsW` and the all-ones vector. -/
theorem C4_sign_split_witness :
    (∀ p ∈ pairsW, BsW.mulVec p.2 = p.1 • p.2)
    ∧ pairwiseOrtho (pairsW.map fun p => p.2)
    ∧ allUnit (pairsW.map fun p => p.2)
    ∧ xW = (pairsW.map fun p => (xW ⬝ᵥ p.2) • p.2).sum
    ∧ ((∀ z, Aposs_ctx_mult BsW (Anegs_ctx_mult (Vnegs pairsW) (DVnegs pairsW)) z
          = BsW.mulVec z + Anegs_ctx_mult (Vnegs pairsW) (DVnegs pairsW) z)
      ∧ BsW.mulVec xW ⬝ᵥ xW
          = Aposs_ctx_mult BsW (Anegs_ctx_mult (Vnegs pairsW) (DVnegs pairsW)) xW ⬝ᵥ xW
            - Anegs_ctx_mult (Vnegs pairsW) (DVnegs pairsW) xW ⬝ᵥ xW
      ∧ 0 ≤ Aposs_ctx_mult BsW (Anegs_ctx_mult (Vnegs pairsW) (DVnegs pairsW)) xW ⬝ᵥ xW
      ∧ 0 ≤ Anegs_ctx_mult (Vnegs pairsW) (DVnegs pairsW) xW ⬝ᵥ xW) := by
  have heig : ∀ p ∈ pairsW, BsW.mulVec p.2 = p.1 • p.2 := by
    intro p hp
    fin_cases hp <;>
      (funext i
       fin_cases i <;>
         simp [BsW, pairsW, unitVec, Matrix.mulVec, Matrix.dotProduct,
           Fin.sum_univ_two])
  have hortho : pairwiseOrtho (pairsW.map fun p => p.2) := by
    simp [pairwiseOrtho, pairsW, unitVec, Matrix.dotProduct, Fin.sum_univ_two]
  have hunit : allUnit (pairsW.map fun p => p.2) := by
    intro v hv
    simp only [pairsW, List.map_cons, List.map_nil, List.mem_cons,
      List.mem_singleton, List.not_mem_nil, or_false] at hv
    rcases hv with h | h <;>
      (subst h; simp [unitVec, Matrix.dotProduct, Fin.sum_univ_two])
  have hspan : xW = (pairsW.map fun p => (xW ⬝ᵥ p.2) • p.2).sum := by
    funext i
    fin_cases i <;>
      simp [pairsW, xW, unitVec, Matrix.dotProduct, Fin.sum_univ_two]
  exact ⟨heig, hortho, hunit, hspan,
    C4_sign_split BsW pairsW xW heig hortho hunit hspan⟩

end GenEO
